import Mathlib

/-
Verification of the transVi subtitle pipeline (cmd/transVi/main.go).

Strings are modelled as `List Char` (Go strings of the relevant inputs are
ASCII).  Go's `time.Duration` is a signed 64-bit count of nanoseconds; it is
modelled as `Int` together with an explicit two's-complement reduction
`wrap64` applied at every arithmetic step that the Go code performs on
durations.  Fallible parsing returns `Option`.
-/

namespace TransVi

/-- Two's-complement wrap-around of signed 64-bit integer arithmetic
(`time.Duration` and `int` are 64-bit in the Go program). -/
def wrap64 (x : Int) : Int :=
  (x + 9223372036854775808) % 18446744073709551616 - 9223372036854775808

/-- Fuel-driven worker for `splitSub` (structural recursion on the fuel so
that the kernel can evaluate it; the fuel is immaterial once it is at least
the length of the list). -/
def splitSubGo (sep : List Char) : Nat → List Char → List (List Char)
  | _, [] => [[]]
  | 0, l => [l]
  | fuel + 1, c :: rest =>
    if sep ≠ [] ∧ sep.isPrefixOf (c :: rest) then
      [] :: splitSubGo sep fuel ((c :: rest).drop sep.length)
    else
      match splitSubGo sep fuel rest with
      | [] => [[c]]
      | h :: t => (c :: h) :: t

/-- Model of Go `strings.Split(s, sep)` for a non-empty separator:
split on every non-overlapping occurrence of `sep`, scanning left to right. -/
def splitSub (sep : List Char) (l : List Char) : List (List Char) :=
  splitSubGo sep l.length l

/-- Go `strings.TrimPrefix`. -/
def goTrimPre (pre l : List Char) : List Char :=
  if pre.isPrefixOf l then l.drop pre.length else l

/-- Go `strings.TrimSuffix`. -/
def goTrimSuf (suf l : List Char) : List Char :=
  if suf.isSuffixOf l then l.take (l.length - suf.length) else l

/-- Digit test used by `strconv` (`0`..`9`). -/
def isDigitChar (c : Char) : Bool := c.isDigit

/-- Numeric value of a decimal digit character. -/
def charVal (c : Char) : Nat := c.toNat - 48

/-- Accumulated decimal value of a digit string (most significant first). -/
def digitsVal (l : List Char) : Nat := l.foldl (fun a c => 10 * a + charVal c) 0

/-- Sign handling of Go `strconv.Atoi`: one optional leading `+` or `-`. -/
def atoiSign (l : List Char) : Int × List Char :=
  match l with
  | [] => (1, [])
  | c :: r => if c = '+' then (1, r) else if c = '-' then (-1, r) else (1, c :: r)

/-- Digit part of Go `strconv.Atoi`: non-empty and all decimal digits. -/
def atoiCore (l : List Char) : Option Nat :=
  match l with
  | [] => none
  | _ => if l.all isDigitChar then some (digitsVal l) else none

/-- Model of Go `strconv.Atoi` (= `ParseInt(s, 10, 64)` on a 64-bit platform):
optional sign, then one or more decimal digits, nothing else; values outside
the signed 64-bit range are an error (`ErrRange`), hence `none`. -/
def atoi (l : List Char) : Option Int :=
  match atoiCore (atoiSign l).2 with
  | none => none
  | some n =>
    let v : Int := (atoiSign l).1 * n
    if v < -9223372036854775808 ∨ 9223372036854775808 ≤ v then none else some v

/-- Greedy 1-or-2-digit number, as Go `time.Parse` reads a non-zero-padded
hour field (`"15"`). -/
def clockDigits : List Char → Option (Nat × List Char)
  | [] => none
  | [c1] => if isDigitChar c1 then some (charVal c1, []) else none
  | c1 :: c2 :: rest =>
    if isDigitChar c1 then
      if isDigitChar c2 then some (10 * charVal c1 + charVal c2, rest)
      else some (charVal c1, c2 :: rest)
    else none

/-- Exactly two digits, as Go `time.Parse` reads zero-padded minute and
second fields (`"04"`, `"05"`). -/
def twoDigits : List Char → Option (Nat × List Char)
  | c1 :: c2 :: rest =>
    if isDigitChar c1 ∧ isDigitChar c2 then some (10 * charVal c1 + charVal c2, rest)
    else none
  | _ => none

/-- Model of Go `time.Parse("15:04:05", s)` restricted to the fields the
program reads: hour (1-2 digits, 0..23), `:`, minute (2 digits, 0..59), `:`,
second (2 digits, 0..59), end of input. -/
def parseClock (l : List Char) : Option (Nat × Nat × Nat) :=
  match clockDigits l with
  | none => none
  | some (h, r1) =>
    match r1 with
    | [] => none
    | c1 :: r2 =>
      if c1 = ':' then
        match twoDigits r2 with
        | none => none
        | some (m, r3) =>
          match r3 with
          | [] => none
          | c2 :: r4 =>
            if c2 = ':' then
              match twoDigits r4 with
              | none => none
              | some (s, r5) =>
                if r5 = [] ∧ h < 24 ∧ m < 60 ∧ s < 60 then some (h, m, s) else none
            else none
      else none

/-- `parseSrtTime` from main.go: split on `,` into exactly two parts, parse
the clock part with `time.Parse("15:04:05", ·)` and the millisecond part with
`strconv.Atoi`, then build the duration with 64-bit `time.Duration`
arithmetic. -/
def parseSrtTime (s : List Char) : Option Int :=
  match splitSub [','] s with
  | [hms, msStr] =>
    match parseClock hms with
    | none => none
    | some (h, m, sec) =>
      match atoi msStr with
      | none => none
      | some ms =>
        some (wrap64 (wrap64 (wrap64 (wrap64 ((h : Int) * 3600000000000) +
          wrap64 ((m : Int) * 60000000000)) + wrap64 ((sec : Int) * 1000000000)) +
          wrap64 (ms * 1000000)))
  | _ => none

/-- The `Subtitle` struct of main.go (`time.Duration` fields as `Int`
nanoseconds, strings as `List Char`). -/
structure Subtitle where
  Index : Int
  Start : Int
  End : Int
  Content : List Char
deriving DecidableEq

/-- Whitespace recognised by Go `unicode.IsSpace` in the Latin-1 range
(`strings.TrimSpace` trims these). -/
def goIsSpace (c : Char) : Bool :=
  c = ' ' ∨ c = '\t' ∨ c = '\n' ∨ c = '\r' ∨
    c = Char.ofNat 11 ∨ c = Char.ofNat 12 ∨ c = Char.ofNat 133 ∨ c = Char.ofNat 160

/-- Go `strings.Join(lines, "\n")`. -/
def joinNl : List (List Char) → List Char
  | [] => []
  | [l] => l
  | l :: rest => l ++ '\n' :: joinNl rest

/-- The separator `" --> "` of an SRT timecode line. -/
def arrowSep : List Char := [ ' ', '-', '-', '>', ' ']

/-- One iteration of the block loop of `parseSrt` (main.go lines 159-195):
skip a whitespace-only part, require at least 3 lines, parse the index line
with `strconv.Atoi`, split the timecode line on `" --> "` into exactly two
timecodes, parse both, and join the remaining lines into the content.  Any
failure skips the block (`continue`). -/
def parseBlockGo (offset : Int) (part : List Char) : Option Subtitle :=
  if part.all goIsSpace then none
  else
    match splitSub [ '\n'] part with
    | l0 :: l1 :: l2 :: rest =>
      match atoi l0 with
      | none => none
      | some idx =>
        match splitSub arrowSep l1 with
        | [t0, t1] =>
          match parseSrtTime t0 with
          | none => none
          | some st =>
            match parseSrtTime t1 with
            | none => none
            | some en =>
              some { Index := idx, Start := wrap64 (st + offset),
                     End := wrap64 (en + offset), Content := joinNl (l2 :: rest) }
        | _ => none
    | _ => none

/-- `parseSrt` from main.go: split the data on blank lines (`"\n\n"`) and
run the block loop, appending each successfully parsed block.  The Go
function's only return is `(subtitles, nil)`. -/
def parseSrt (data : List Char) (offset : Int) : List Subtitle :=
  (splitSub [ '\n', '\n'] data).foldl
    (fun acc part =>
      match parseBlockGo offset part with
      | none => acc
      | some sub => acc ++ [sub]) []

/-- The Go signature of `parseSrt` returns `([]Subtitle, error)`; the body's
single return statement is `return subtitles, nil`. -/
def parseSrtRet (data : List Char) (offset : Int) : Except (List Char) (List Subtitle) :=
  Except.ok (parseSrt data offset)

/-- The constant prefix `"part"` trimmed by the merge."-/
def partPre : List Char := [ 'p', 'a', 'r', 't']

/-- The extension `".srt"`. -/
def srtExt : List Char := [ '.', 's', 'r', 't']

/-- The extension `".wav"`. -/
def wavExt : List Char := [ '.', 'w', 'a', 'v']

/-- Ordinal derivation of `mergeSubtitlesAndReencode` (main.go lines
207-213): trim prefix `"part"` and suffix `".srt"` from the fragment's base
filename, parse with `strconv.Atoi`; an error or a value below 1 skips the
file. -/
def ordinalOf (filename : List Char) : Option Int :=
  match atoi (goTrimSuf srtExt (goTrimPre partPre filename)) with
  | none => none
  | some k => if k < 1 then none else some k

/-- Offset computation of main.go line 221,
`offset := time.Duration(index-1) * 30 * time.Second`, with 64-bit
`time.Duration` arithmetic at every step. -/
def offsetOf (k : Int) : Int :=
  wrap64 (wrap64 (wrap64 (k - 1) * 30) * 1000000000)

/-- The defensive negative-time clamp of main.go lines 229-236. -/
def clampSub (s : Subtitle) : Subtitle :=
  { s with Start := if s.Start < 0 then 0 else s.Start,
           End := if s.End < 0 then 0 else s.End }

/-- Entries that one fragment file contributes to the merge: derive the
ordinal from the filename (skipping the file on failure), parse the contents
with the ordinal's offset, and clamp negative times. -/
def fragmentEntries (filename content : List Char) : List Subtitle :=
  match ordinalOf filename with
  | none => []
  | some k => (parseSrt content (offsetOf k)).map clampSub

/-- Accumulation of `allSubtitles` across the discovered fragment files in
walk order (main.go line 238). -/
def accumEntries (files : List (List Char × List Char)) : List Subtitle :=
  files.foldl (fun acc f => acc ++ fragmentEntries f.1 f.2) []

/-- The contract of Go `sort.Slice(allSubtitles, less)` with
`less i j = Start i < Start j`: the result is a permutation of the input in
which no later element has a strictly smaller `Start`.  (`sort.Slice` is
documented as NOT stable, so the relation is all the code guarantees.) -/
def SortSliceSpec (input out : List Subtitle) : Prop :=
  input.Perm out ∧ out.Pairwise (fun a b => a.Start ≤ b.Start)

/-- Decimal digit character. -/
def dChar (n : Nat) : Char :=
  match n with
  | 0 => '0' | 1 => '1' | 2 => '2' | 3 => '3' | 4 => '4'
  | 5 => '5' | 6 => '6' | 7 => '7' | 8 => '8' | 9 => '9'
  | _ => '?'

/-- Fuel-driven worker for `natRepr` (structural recursion on the fuel). -/
def natReprGo : Nat → Nat → List Char
  | 0, n => [dChar (n % 10)]
  | f + 1, n => if n < 10 then [dChar n] else natReprGo f (n / 10) ++ [dChar (n % 10)]

/-- Decimal representation of a natural number (Go `%d`). -/
def natRepr (n : Nat) : List Char :=
  natReprGo n n

/-- Left-pad with `'0'` to the given width (Go `%0*d` for non-negative
values). -/
def zeroPad (w : Nat) (l : List Char) : List Char :=
  List.replicate (w - l.length) '0' ++ l

/-- Go `fmt.Sprintf("%0*d", w, x)` for an `int64` value: zero padding counts
the sign character. -/
def intPad (w : Nat) (x : Int) : List Char :=
  if x < 0 then '-' :: zeroPad (w - 1) (natRepr (-x).toNat)
  else zeroPad w (natRepr x.toNat)

/-- The timecode rendering of main.go lines 256-258:
`%02d:%02d:%02d,%03d` applied to `int(d.Hours())`, `int(d.Minutes())%60`,
`int(d.Seconds())%60`, `d.Milliseconds()%1000` (Go division and remainder
truncate toward zero). -/
def fmtSrtTime (d : Int) : List Char :=
  intPad 2 (d.tdiv 3600000000000) ++ ':' ::
    (intPad 2 ((d.tdiv 60000000000).tmod 60) ++ ':' ::
      (intPad 2 ((d.tdiv 1000000000).tmod 60) ++ ',' ::
        intPad 3 ((d.tdiv 1000000).tmod 1000)))

/-- One entry of the merged output (main.go lines 252-259): the 1-based
sequential index, the timecode line, the content, and a blank-line
separator. -/
def serializeEntry (i : Nat) (s : Subtitle) : List Char :=
  natRepr i ++ '\n' ::
    (fmtSrtTime s.Start ++ arrowSep ++ fmtSrtTime s.End ++ '\n' ::
      (s.Content ++ [ '\n', '\n']))

/-- Serialization of the sorted collection with 1-based renumbering. -/
def mergeSerializeFrom : Nat → List Subtitle → List Char
  | _, [] => []
  | i, s :: rest => serializeEntry (i + 1) s ++ mergeSerializeFrom (i + 1) rest

/-- The merged output text built by `mergeSubtitlesAndReencode`. -/
def mergeSerialize (subs : List Subtitle) : List Char :=
  mergeSerializeFrom 0 subs

/-- Outcome of `mergeSubtitlesAndReencode` on a given collection of fragment
files (filename, contents), up to the filesystem: accumulate entries in walk
order, sort them per the `sort.Slice` contract, and serialize. -/
def MergeOutcome (files : List (List Char × List Char)) (res : List Char) : Prop :=
  ∃ sorted, SortSliceSpec (accumEntries files) sorted ∧ res = mergeSerialize sorted

/-- Whether a character list contains two consecutive newlines (an occurrence
of the block separator `"\n\n"`). -/
def hasNN : List Char → Bool
  | [] => false
  | c :: r => (decide (c = '\n') && decide (r.head? = some '\n')) || hasNN r

/-- Join blocks with the blank-line separator `"\n\n"` (the inverse direction
of the split performed by `parseSrt`). -/
def joinBlocks : List (List Char) → List Char
  | [] => []
  | [b] => b
  | b :: rest => b ++ '\n' :: '\n' :: joinBlocks rest

/-- The filename under which the worker pool stores the fragment of one
audio segment: ffmpeg produces `part%03d.wav`, and the pool appends `".srt"`
(main.go line 68). -/
def workerOutputName (n : Nat) : List Char :=
  partPre ++ zeroPad 3 (natRepr n) ++ wavExt ++ srtExt

/-- Phase of one transcription task of the worker pool. -/
inductive TPhase
  | pending
  | running
  | finished
deriving DecidableEq

/-- Phase of the main goroutine of the worker pool (main.go lines 78-102):
the launch loop, `wg.Wait()`, and the drain of `errChan` (which exits with
code 1 on the first collected error). -/
inductive MPhase
  | launching
  | waiting
  | doneOk
  | doneFail
deriving DecidableEq

/-- State of the worker pool run of the claim's scenario: 5 segments,
`workers` = 2, task number 3 (index 2) fails.  `sem` counts tokens held in
the buffered channel `semaphore`, `wg` is the `sync.WaitGroup` counter and
`errs` the number of errors collected in `errChan`. -/
structure PoolState where
  tasks : List TPhase
  launched : Nat
  sem : Nat
  wg : Nat
  errs : Nat
  mainPh : MPhase
deriving DecidableEq

/-- Initial pool state: nothing launched, no tokens held. -/
def poolInit : PoolState :=
  { tasks := List.replicate 5 TPhase.pending, launched := 0, sem := 0,
    wg := 0, errs := 0, mainPh := MPhase.launching }

/-- Number of tasks currently in their goroutine (holding a semaphore token
and running the external process). -/
def countRun : List TPhase → Nat
  | [] => 0
  | t :: r => (if t = TPhase.running then 1 else 0) + countRun r

/-- Interleaving semantics of the worker pool (main.go lines 78-102) for
N = 5 tasks, workers W = 2, with exactly task index 2 failing.
`launch`: the main loop does `wg.Add(1)` and acquires a semaphore token
(blocking while 2 are held), then spawns the task's goroutine.
`beginWait`: the loop ends and main blocks in `wg.Wait()`.
`complete`: a running task finishes its external process; its deferred
actions send the error (task index 2 only) to the buffered `errChan`,
release the token, and call `wg.Done()`.
`report`: `wg.Wait()` returns once the counter is zero; main closes
`errChan` and drains it, exiting with code 1 on the first error. -/
inductive PStep : PoolState → PoolState → Prop
  | launch (s : PoolState) (h1 : s.mainPh = MPhase.launching)
      (h2 : s.launched < 5) (h3 : s.sem < 2) :
      PStep s { tasks := s.tasks.set s.launched TPhase.running,
                launched := s.launched + 1, sem := s.sem + 1, wg := s.wg + 1,
                errs := s.errs, mainPh := MPhase.launching }
  | beginWait (s : PoolState) (h1 : s.mainPh = MPhase.launching)
      (h2 : s.launched = 5) :
      PStep s { s with mainPh := MPhase.waiting }
  | complete (s : PoolState) (i : Nat) (h1 : s.tasks.get? i = some TPhase.running) :
      PStep s { tasks := s.tasks.set i TPhase.finished, launched := s.launched,
                sem := s.sem - 1, wg := s.wg - 1,
                errs := if i = 2 then s.errs + 1 else s.errs, mainPh := s.mainPh }
  | report (s : PoolState) (h1 : s.mainPh = MPhase.waiting) (h2 : s.wg = 0) :
      PStep s { s with mainPh := if s.errs = 0 then MPhase.doneOk else MPhase.doneFail }

/-- States the worker pool can reach from the start. -/
def PoolReachable (s : PoolState) : Prop :=
  Relation.ReflTransGen PStep poolInit s

/-- Weight of the main goroutine's phase in the pool measure. -/
def mweight : MPhase → Nat
  | MPhase.launching => 2
  | MPhase.waiting => 1
  | MPhase.doneOk => 0
  | MPhase.doneFail => 0

/-- Strictly decreasing measure of the pool transition system. -/
def poolMeasure (s : PoolState) : Nat :=
  2 * (5 - s.launched) + countRun s.tasks + mweight s.mainPh

/-- Inductive invariant of the pool transition system: tasks are launched in
order, the semaphore token count and the wait-group counter both equal the
number of running tasks and never exceed the worker limit 2, the error
channel holds exactly the errors of finished failing tasks, and the
terminal `doneFail` phase is reached only with all tasks finished and one
collected error. -/
def PoolInv (s : PoolState) : Prop :=
  s.tasks.length = 5 ∧ s.launched ≤ 5 ∧
  (∀ i x, s.tasks.get? i = some x → (x = TPhase.pending ↔ s.launched ≤ i)) ∧
  s.sem = countRun s.tasks ∧ s.wg = countRun s.tasks ∧ s.sem ≤ 2 ∧
  s.errs = (if s.tasks.get? 2 = some TPhase.finished then 1 else 0) ∧
  (s.mainPh ≠ MPhase.launching → s.launched = 5) ∧
  s.mainPh ≠ MPhase.doneOk ∧
  (s.mainPh = MPhase.doneFail → s.tasks = List.replicate 5 TPhase.finished ∧ s.errs = 1)

/-- Two subtitle entries with equal `Start`, accumulated in this order. -/
def subA : Subtitle :=
  { Index := 1, Start := 0, End := 1000000000, Content := [ 'A'] }

/-- Second entry with the same `Start` as `subA`. -/
def subB : Subtitle :=
  { Index := 2, Start := 0, End := 1000000000, Content := [ 'B'] }

/-! Helper lemmas. -/

theorem wrap64_eq_self {x : Int} (h1 : -9223372036854775808 ≤ x)
    (h2 : x < 9223372036854775808) : TransVi.wrap64 x = x := by
  unfold wrap64
  omega

theorem wrap64_add_right (a b : Int) : wrap64 (a + wrap64 b) = wrap64 (a + b) := by
  unfold wrap64
  omega

theorem wrap64_add_left (a b : Int) : wrap64 (wrap64 a + b) = wrap64 (a + b) := by
  unfold wrap64
  omega

theorem splitSubGo_irrel (sep : List Char) :
    ∀ (f1 f2 : Nat) (l : List Char), l.length ≤ f1 → l.length ≤ f2 →
      splitSubGo sep f1 l = splitSubGo sep f2 l := by
  intro f1
  induction f1 with
  | zero =>
    intro f2 l h1 _
    have hl : l = [] := List.length_eq_zero.mp (Nat.le_zero.mp h1)
    subst hl
    cases f2 <;> rfl
  | succ f ih =>
    intro f2 l h1 h2
    cases l with
    | nil => cases f2 <;> rfl
    | cons c rest =>
      cases f2 with
      | zero => simp at h2
      | succ f2' =>
        simp only [splitSubGo]
        by_cases hg : sep ≠ [] ∧ sep.isPrefixOf (c :: rest)
        · rw [if_pos hg, if_pos hg]
          have hsep : 1 ≤ sep.length := List.length_pos.mpr hg.1
          have hlen : ((c :: rest).drop sep.length).length ≤ f := by
            simp only [List.length_drop, List.length_cons]
            simp only [List.length_cons] at h1
            omega
          have hlen2 : ((c :: rest).drop sep.length).length ≤ f2' := by
            simp only [List.length_drop, List.length_cons]
            simp only [List.length_cons] at h2
            omega
          rw [ih f2' _ hlen hlen2]
        · rw [if_neg hg, if_neg hg,
            ih f2' rest (by simp only [List.length_cons] at h1; omega)
              (by simp only [List.length_cons] at h2; omega)]

theorem splitSub_nil (sep : List Char) : splitSub sep [] = [[]] := rfl

theorem splitSub_cons (sep : List Char) (c : Char) (rest : List Char) :
    splitSub sep (c :: rest) =
      if sep ≠ [] ∧ sep.isPrefixOf (c :: rest) then
        [] :: splitSub sep ((c :: rest).drop sep.length)
      else
        match splitSub sep rest with
        | [] => [[c]]
        | h :: t => (c :: h) :: t := by
  show splitSubGo sep (rest.length + 1) (c :: rest) = _
  simp only [splitSubGo]
  by_cases hg : sep ≠ [] ∧ sep.isPrefixOf (c :: rest)
  · rw [if_pos hg, if_pos hg]
    have hsep : 1 ≤ sep.length := List.length_pos.mpr hg.1
    show _ = [] :: splitSubGo sep ((c :: rest).drop sep.length).length _
    rw [splitSubGo_irrel sep rest.length (((c :: rest).drop sep.length).length) _
      (by simp only [List.length_drop, List.length_cons]; omega) (le_refl _)]
  · rw [if_neg hg, if_neg hg]
    rfl

theorem natReprGo_irrel : ∀ (f1 f2 n : Nat), n ≤ f1 → n ≤ f2 →
    natReprGo f1 n = natReprGo f2 n := by
  intro f1
  induction f1 with
  | zero =>
    intro f2 n h1 _
    have hn : n = 0 := by omega
    subst hn
    cases f2 <;> simp [natReprGo]
  | succ f ih =>
    intro f2 n h1 h2
    by_cases hn : n < 10
    · cases f2 with
      | zero =>
        have hz : n = 0 := by omega
        subst hz
        simp [natReprGo]
      | succ f2' => simp [natReprGo, hn]
    · cases f2 with
      | zero => omega
      | succ f2' =>
        simp only [natReprGo, if_neg hn]
        rw [ih f2' (n / 10) (by omega) (by omega)]

theorem natRepr_eq (n : Nat) :
    natRepr n = if n < 10 then [dChar n] else natRepr (n / 10) ++ [dChar (n % 10)] := by
  show natReprGo n n = _
  cases n with
  | zero => simp [natReprGo]
  | succ m =>
    simp only [natReprGo]
    by_cases hn : m + 1 < 10
    · rw [if_pos hn, if_pos hn]
    · rw [if_neg hn, if_neg hn]
      show natReprGo m ((m + 1) / 10) ++ _ = natReprGo ((m + 1) / 10) ((m + 1) / 10) ++ _
      rw [natReprGo_irrel m ((m + 1) / 10) ((m + 1) / 10) (by omega) (le_refl _)]

theorem atoiCore_none {l : List Char} (h : l.all isDigitChar = false) :
    atoiCore l = none := by
  cases l with
  | nil => rfl
  | cons c r => simp [atoiCore, h]

theorem atoiSign_mem {c : Char} {l : List Char} (hm : c ∈ l)
    (hp : c ≠ '+') (hs : c ≠ '-') : c ∈ (atoiSign l).2 := by
  cases l with
  | nil => cases hm
  | cons x r =>
    rcases List.mem_cons.mp hm with rfl | hr
    · simp [atoiSign, hp, hs]
    · by_cases h1 : x = '+'
      · simpa [atoiSign, h1] using hr
      · by_cases h2 : x = '-'
        · simpa [atoiSign, h1, h2] using hr
        · simpa [atoiSign, h1, h2] using List.mem_cons_of_mem x hr

theorem atoi_none_of_bad_char {c : Char} {l : List Char} (hm : c ∈ l)
    (hd : isDigitChar c = false) (hp : c ≠ '+') (hs : c ≠ '-') :
    atoi l = none := by
  have hmem : c ∈ (atoiSign l).2 := atoiSign_mem hm hp hs
  have hall : (atoiSign l).2.all isDigitChar = false := by
    cases hb : (atoiSign l).2.all isDigitChar
    · rfl
    · have := List.all_eq_true.mp hb c hmem
      simp [hd] at this
  simp [atoi, atoiCore_none hall]

theorem goTrimPre_append (p x : List Char) : goTrimPre p (p ++ x) = x := by
  have hpre : p.isPrefixOf (p ++ x) = true :=
    List.isPrefixOf_iff_prefix.mpr (List.prefix_append p x)
  simp [goTrimPre, hpre]

theorem goTrimSuf_append (sfx x : List Char) : goTrimSuf sfx (x ++ sfx) = x := by
  have hsuf : sfx.isSuffixOf (x ++ sfx) = true :=
    List.isSuffixOf_iff_suffix.mpr (List.suffix_append x sfx)
  have hlen : (x ++ sfx).length - sfx.length = x.length := by
    simp [List.length_append]
  simp only [goTrimSuf, hsuf, if_true, hlen]
  exact List.take_left x sfx

/-- C1: every fragment filename the worker pool itself produces has the form
`part%03d.wav.srt`; the merge trims `part` and `.srt`, leaving `NNN.wav`,
which `strconv.Atoi` rejects, so every such fragment file is skipped and
contributes no entries to the merged output. -/
theorem c1_pipeline_fragments_skipped (n : Nat) (content : List Char) :
    fragmentEntries (workerOutputName n) content = [] := by
  have hshape : workerOutputName n =
      partPre ++ ((zeroPad 3 (natRepr n) ++ wavExt) ++ srtExt) := by
    simp [workerOutputName, List.append_assoc]
  have hdot : ('.' : Char) ∈ zeroPad 3 (natRepr n) ++ wavExt := by
    refine List.mem_append_right _ ?_
    simp [wavExt]
  have hatoi : atoi (goTrimSuf srtExt (goTrimPre partPre (workerOutputName n))) = none := by
    rw [hshape, goTrimPre_append, goTrimSuf_append]
    exact atoi_none_of_bad_char hdot (by decide) (by decide) (by decide)
  simp [fragmentEntries, ordinalOf, hatoi]

/-- C2: the claim says the merge's sort keeps equal-`Start` entries in their
accumulated relative order.  The code sorts with `sort.Slice`, whose contract
(a permutation ordered by the comparator, stability NOT guaranteed) admits
the reversed order for two equal-`Start` entries: with entries `subA`, `subB`
accumulated in that order, the output `[subB, subA]` satisfies the sort
contract while reversing them. -/
theorem c2_sort_slice_admits_unstable :
    SortSliceSpec [subA, subB] [subB, subA] ∧ subA.Start = subB.Start ∧ subA ≠ subB := by
  refine ⟨⟨List.Perm.swap subB subA [], ?_⟩, rfl, by decide⟩
  simp [List.pairwise_cons, subA, subB]

/-- C3 (amended): for a parsed ordinal k with 1 ≤ k ≤ 307445735 the offset
passed to the fragment's parse is exactly (k-1)·30 s in nanoseconds (for
larger ordinals the 64-bit `time.Duration` product wraps); files whose
filename yields no ordinal, or a non-positive one, contribute nothing
instead of aborting the merge; and a parsed ordinal is always ≥ 1 with the
file's entries parsed at offset `offsetOf k`. -/
theorem c3_offset_exact :
    (∀ k : Int, 1 ≤ k → k ≤ 307445735 → offsetOf k = (k - 1) * 30000000000) ∧
    (∀ filename content, ordinalOf filename = none →
      fragmentEntries filename content = []) ∧
    (∀ filename content k, ordinalOf filename = some k →
      1 ≤ k ∧ fragmentEntries filename content =
        (parseSrt content (offsetOf k)).map clampSub) := by
  refine ⟨?_, ?_, ?_⟩
  · intro k h1 h2
    unfold offsetOf wrap64
    omega
  · intro filename content h
    simp [fragmentEntries, h]
  · intro filename content k h
    refine ⟨?_, by simp [fragmentEntries, h]⟩
    unfold ordinalOf at h
    cases hA : atoi (goTrimSuf srtExt (goTrimPre partPre filename)) with
    | none => rw [hA] at h; cases h
    | some v =>
      rw [hA] at h
      by_cases hv : v < 1
      · simp [hv] at h
      · simp [hv] at h
        omega

/-- C3 counterexample: the legal fragment filename `part1000000000.srt`
parses to ordinal 10^9, but the 64-bit duration product
`time.Duration(index-1) * 30 * time.Second` overflows, so the offset is not
(k-1)·30 s. -/
theorem c3_overflow_cex :
    ordinalOf ( "part1000000000.srt".data) = some 1000000000 ∧
    offsetOf 1000000000 ≠ ((1000000000 : Int) - 1) * 30000000000 := by
  constructor
  · decide
  · decide

theorem c3_offset_witness :
    offsetOf 2 = ((2 : Int) - 1) * 30000000000 ∧
    fragmentEntries ( "x.srt".data) [] = [] ∧
    (1 ≤ (7 : Int) ∧ fragmentEntries ( "part7.srt".data) [] =
      (parseSrt [] (offsetOf 7)).map clampSub) :=
  ⟨c3_offset_exact.1 2 (by decide) (by decide),
   c3_offset_exact.2.1 ( "x.srt".data) [] (by decide),
   c3_offset_exact.2.2 ( "part7.srt".data) [] 7 (by decide)⟩

theorem foldl_append_acc {α β : Type} (g : α → List β) :
    ∀ (L : List α) (acc : List β),
      L.foldl (fun a x => a ++ g x) acc = acc ++ L.flatMap g := by
  intro L
  induction L with
  | nil => intro acc; simp
  | cons x xs ih =>
    intro acc
    simp [List.flatMap_cons, ih (acc ++ g x), List.append_assoc]

theorem accumEntries_eq (files : List (List Char × List Char)) :
    accumEntries files = files.flatMap (fun f => fragmentEntries f.1 f.2) := by
  unfold accumEntries
  simpa using foldl_append_acc (fun f => fragmentEntries f.1 f.2) files []

theorem fragmentEntries_nonneg {filename content : List Char} {e : Subtitle}
    (he : e ∈ fragmentEntries filename content) : 0 ≤ e.Start ∧ 0 ≤ e.End := by
  unfold fragmentEntries at he
  cases h : ordinalOf filename with
  | none => rw [h] at he; cases he
  | some k =>
    rw [h] at he
    rcases List.mem_map.mp he with ⟨x, _, rfl⟩
    unfold clampSub
    constructor <;> dsimp only <;> split <;> omega

/-- C4: for every collection of fragment files, in every discovery order,
the entry sequence admitted by the merge's sort is non-decreasing in `Start`
and is a permutation of the accumulated entries. -/
theorem c4_merged_sorted (files files' : List (List Char × List Char))
    (sorted : List Subtitle) (horder : files.Perm files')
    (hsort : SortSliceSpec (accumEntries files') sorted) :
    sorted.Pairwise (fun a b => a.Start ≤ b.Start) ∧ (accumEntries files).Perm sorted := by
  refine ⟨hsort.2, ?_⟩
  have h1 : (accumEntries files).Perm (accumEntries files') := by
    rw [accumEntries_eq, accumEntries_eq]
    exact horder.flatMap_right _
  exact h1.trans hsort.1

theorem c4_merged_sorted_witness :
    ([⟨1, 500000000, 1000000000, [ 'A']⟩,
      ⟨1, 30000000000, 31000000000, [ 'B']⟩] : List Subtitle).Pairwise
        (fun a b => a.Start ≤ b.Start) ∧
    (accumEntries [( "part1.srt".data, "1\n00:00:00,500 --> 00:00:01,000\nA".data),
                   ( "part2.srt".data, "1\n00:00:00,000 --> 00:00:01,000\nB".data)]).Perm
      [⟨1, 500000000, 1000000000, [ 'A']⟩, ⟨1, 30000000000, 31000000000, [ 'B']⟩] :=
  c4_merged_sorted
    [( "part1.srt".data, "1\n00:00:00,500 --> 00:00:01,000\nA".data),
     ( "part2.srt".data, "1\n00:00:00,000 --> 00:00:01,000\nB".data)]
    [( "part2.srt".data, "1\n00:00:00,000 --> 00:00:01,000\nB".data),
     ( "part1.srt".data, "1\n00:00:00,500 --> 00:00:01,000\nA".data)]
    [⟨1, 500000000, 1000000000, [ 'A']⟩, ⟨1, 30000000000, 31000000000, [ 'B']⟩]
    (by decide) (by refine ⟨by decide, by decide⟩)

/-- C8: every entry accumulated by the merge is clamped to non-negative
`Start` and `End` before sorting, so every entry of the merged output is
non-negative in both fields. -/
theorem c8_merged_nonneg (files : List (List Char × List Char))
    (sorted : List Subtitle) (hsort : SortSliceSpec (accumEntries files) sorted) :
    ∀ e ∈ sorted, 0 ≤ e.Start ∧ 0 ≤ e.End := by
  intro e he
  have hacc : e ∈ accumEntries files := (hsort.1.mem_iff).mpr he
  rw [accumEntries_eq] at hacc
  rcases List.mem_flatMap.mp hacc with ⟨f, _, hef⟩
  exact fragmentEntries_nonneg hef

theorem c8_merged_nonneg_witness :
    0 ≤ (⟨1, 0, 1000000000, [ 'n']⟩ : Subtitle).Start ∧
    0 ≤ (⟨1, 0, 1000000000, [ 'n']⟩ : Subtitle).End :=
  c8_merged_nonneg [( "part1.srt".data, "1\n00:00:00,-500 --> 00:00:01,000\nn".data)]
    [⟨1, 0, 1000000000, [ 'n']⟩]
    (by refine ⟨by decide, by decide⟩)
    ⟨1, 0, 1000000000, [ 'n']⟩ (by decide)

/-- C9: with zero fragment files discovered, the merge's accumulated
collection is empty, the sorted collection is necessarily empty, and the
serialized output is the empty (zero-length) text; such an outcome exists,
i.e. the merge succeeds rather than erroring. -/
theorem c9_zero_fragments :
    (∀ res, MergeOutcome [] res → res = []) ∧ MergeOutcome [] [] := by
  constructor
  · rintro res ⟨sorted, ⟨hperm, _⟩, rfl⟩
    have hnil : sorted = [] := by
      have : sorted.Perm ([] : List Subtitle) := hperm.symm
      exact this.eq_nil
    rw [hnil]
    rfl
  · exact ⟨[], ⟨List.Perm.refl _, List.Pairwise.nil⟩, rfl⟩

theorem c9_zero_fragments_witness : mergeSerialize [] = [] :=
  c9_zero_fragments.1 (mergeSerialize [])
    ⟨[], ⟨List.Perm.refl _, List.Pairwise.nil⟩, rfl⟩

/-- C7 (amended): every accepted timecode string splits into a clock part
`h:m:s` (h ≤ 23, m, s ≤ 59) and an integer millisecond part, and the
returned duration is (h·3600 + m·60 + s)·10^9 + ms·10^6 nanoseconds reduced
by two's-complement 64-bit wrap-around — equal to the exact formula whenever
that formula fits a signed 64-bit count (as it always does for ms in
0..999).  The millisecond component is not restricted to 0..999 (witness:
`00:00:00,5000` is accepted). -/
theorem c7_timecode_formula :
    (∀ s d, parseSrtTime s = some d →
      ∃ hms msStr h m sec ms, splitSub [ ','] s = [hms, msStr] ∧
        parseClock hms = some (h, m, sec) ∧ atoi msStr = some ms ∧
        d = wrap64 (((h : Int) * 3600 + m * 60 + sec) * 1000000000 + ms * 1000000) ∧
        (-9223372036854775808 ≤ ((h : Int) * 3600 + m * 60 + sec) * 1000000000 + ms * 1000000 →
          ((h : Int) * 3600 + m * 60 + sec) * 1000000000 + ms * 1000000 < 9223372036854775808 →
          d = ((h : Int) * 3600 + m * 60 + sec) * 1000000000 + ms * 1000000)) ∧
    parseSrtTime ( "00:00:00,5000".data) = some 5000000000 := by
  constructor
  · intro s d hp
    unfold parseSrtTime at hp
    cases hsp : splitSub [ ','] s with
    | nil => rw [hsp] at hp; cases hp
    | cons a t =>
      cases t with
      | nil => rw [hsp] at hp; cases hp
      | cons b t2 =>
        cases t2 with
        | cons c t3 => rw [hsp] at hp; cases hp
        | nil =>
          rw [hsp] at hp
          dsimp only at hp
          cases hclock : parseClock a with
          | none => rw [hclock] at hp; cases hp
          | some triple =>
            obtain ⟨h, m, sec⟩ := triple
            rw [hclock] at hp
            dsimp only at hp
            cases hatoi : atoi b with
            | none => rw [hatoi] at hp; cases hp
            | some ms =>
              rw [hatoi] at hp
              dsimp only at hp
              injection hp with hd
              have hcollapse : d =
                  wrap64 (((h : Int) * 3600 + m * 60 + sec) * 1000000000 + ms * 1000000) := by
                rw [← hd]
                simp only [wrap64_add_left, wrap64_add_right]
                exact congrArg wrap64 (by ring)
              refine ⟨a, b, h, m, sec, ms, rfl, hclock, hatoi, hcollapse, ?_⟩
              intro hlo hhi
              rw [hcollapse, wrap64_eq_self hlo hhi]
  · decide

/-- C7 counterexample: the accepted timecode `00:00:00,9300000000000` (a
13-digit millisecond field) returns a wrapped negative duration, not the
claim's h·3600s + m·60s + s + ms·1ms. -/
theorem c7_overflow_cex :
    parseSrtTime ( "00:00:00,9300000000000".data) = some (-9146744073709551616) ∧
    (-9146744073709551616 : Int) ≠
      ((0 : Int) * 3600 + 0 * 60 + 0) * 1000000000 + 9300000000000 * 1000000 :=
  ⟨by decide, by decide⟩

theorem c7_timecode_formula_witness :
    ∃ hms msStr h m sec ms,
      splitSub [ ','] ( "01:02:03,004".data) = [hms, msStr] ∧
      parseClock hms = some (h, m, sec) ∧ atoi msStr = some ms ∧
      (3723004000000 : Int) =
        wrap64 (((h : Int) * 3600 + m * 60 + sec) * 1000000000 + ms * 1000000) ∧
      (-9223372036854775808 ≤ ((h : Int) * 3600 + m * 60 + sec) * 1000000000 + ms * 1000000 →
        ((h : Int) * 3600 + m * 60 + sec) * 1000000000 + ms * 1000000 < 9223372036854775808 →
        (3723004000000 : Int) = ((h : Int) * 3600 + m * 60 + sec) * 1000000000 + ms * 1000000) :=
  c7_timecode_formula.1 ( "01:02:03,004".data) 3723004000000 (by decide)

theorem nn_isPrefixOf_iff (c : Char) (rest : List Char) :
    ([ '\n', '\n'] : List Char).isPrefixOf (c :: rest) = true ↔
      c = '\n' ∧ rest.head? = some '\n' := by
  cases rest with
  | nil =>
    rw [List.isPrefixOf_cons₂]
    simp only [List.isPrefixOf_cons_nil, Bool.and_false, List.head?_nil]
    simp
  | cons d rs =>
    rw [List.isPrefixOf_cons₂, List.isPrefixOf_cons₂]
    simp only [List.isPrefixOf_nil_left, Bool.and_true, Bool.and_eq_true, beq_iff_eq,
      List.head?_cons, Option.some.injEq]
    constructor
    · rintro ⟨h1, h2⟩; exact ⟨h1.symm, h2.symm⟩
    · rintro ⟨h1, h2⟩; exact ⟨h1.symm, h2.symm⟩

theorem hasNN_cons (c : Char) (rest : List Char) (h : hasNN (c :: rest) = false) :
    ¬(c = '\n' ∧ rest.head? = some '\n') ∧ hasNN rest = false := by
  simp only [hasNN, Bool.or_eq_false_iff, Bool.and_eq_false_iff,
    decide_eq_false_iff_not] at h
  refine ⟨?_, h.2⟩
  rintro ⟨h1, h2⟩
  rcases h.1 with hc | hc <;> exact hc (by assumption)

theorem hasNN_false_split {l : List Char} (h : hasNN l = false) :
    splitSub [ '\n', '\n'] l = [l] := by
  induction l with
  | nil => rfl
  | cons c rest ih =>
    obtain ⟨hhead, htail⟩ := hasNN_cons c rest h
    rw [splitSub_cons]
    rw [if_neg (by
      rintro ⟨-, hpre⟩
      exact hhead ((nn_isPrefixOf_iff c rest).mp hpre))]
    rw [ih htail]

theorem splitNN_append (rest : List Char) :
    ∀ (b : List Char), hasNN b = false → b.getLast? ≠ some '\n' →
      splitSub [ '\n', '\n'] (b ++ '\n' :: '\n' :: rest) =
        b :: splitSub [ '\n', '\n'] rest := by
  intro b
  induction b with
  | nil =>
    intro _ _
    rw [List.nil_append, splitSub_cons]
    rw [if_pos ⟨by simp, ((nn_isPrefixOf_iff _ _).mpr ⟨rfl, rfl⟩)⟩]
    simp
  | cons c b' ih =>
    intro hb hlast
    obtain ⟨hhead, htail⟩ := hasNN_cons c b' hb
    rw [List.cons_append, splitSub_cons]
    rw [if_neg (by
      rintro ⟨-, hpre⟩
      obtain ⟨hc, hh⟩ := (nn_isPrefixOf_iff _ _).mp hpre
      cases b' with
      | nil => exact hlast (by simp [hc, List.getLast?])
      | cons d b2 =>
        simp only [List.cons_append, List.head?_cons, Option.some.injEq] at hh
        exact hhead ⟨hc, by simp [hh]⟩)]
    have hlast' : b'.getLast? ≠ some '\n' := by
      cases b' with
      | nil => simp
      | cons d b2 =>
        intro hcontra
        exact hlast (by rw [List.getLast?_cons_cons]; exact hcontra)
    rw [ih htail hlast']

theorem splitNN_joinBlocks :
    ∀ (blocks : List (List Char)), blocks ≠ [] →
      (∀ b ∈ blocks, hasNN b = false ∧ b.getLast? ≠ some '\n') →
      splitSub [ '\n', '\n'] (joinBlocks blocks) = blocks := by
  intro blocks
  induction blocks with
  | nil => intro h; cases h rfl
  | cons b rest ih =>
    intro _ hcond
    cases rest with
    | nil =>
      show splitSub [ '\n', '\n'] (joinBlocks [b]) = [b]
      have : joinBlocks [b] = b := rfl
      rw [this]
      exact hasNN_false_split (hcond b (by simp)).1
    | cons b2 rest2 =>
      have hj : joinBlocks (b :: b2 :: rest2) = b ++ '\n' :: '\n' :: joinBlocks (b2 :: rest2) := rfl
      rw [hj, splitNN_append _ b (hcond b (by simp)).1 (hcond b (by simp)).2]
      rw [ih (by simp) (fun x hx => hcond x (List.mem_cons_of_mem b hx))]

theorem parseSrt_foldl (offset : Int) :
    ∀ (parts : List (List Char)) (acc : List Subtitle),
      parts.foldl (fun acc part =>
        match parseBlockGo offset part with
        | none => acc
        | some sub => acc ++ [sub]) acc = acc ++ parts.filterMap (parseBlockGo offset) := by
  intro parts
  induction parts with
  | nil => intro acc; simp
  | cons p ps ih =>
    intro acc
    simp only [List.foldl_cons, List.filterMap_cons]
    cases hp : parseBlockGo offset p with
    | none => exact ih acc
    | some s => exact (ih (acc ++ [s])).trans (by simp)

/-- C6: the subtitle parser never surfaces an error to its caller (its only
return is `(subtitles, nil)`), and on a text assembled from blocks every
malformed block is simply skipped while the remaining well-formed blocks of
the same text are still parsed: the result is exactly the `filterMap` of the
per-block parser over the blocks. -/
theorem c6_lenient_parse :
    (∀ data offset, parseSrtRet data offset = Except.ok (parseSrt data offset)) ∧
    (∀ (offset : Int) (blocks : List (List Char)), blocks ≠ [] →
      (∀ b ∈ blocks, hasNN b = false ∧ b.getLast? ≠ some '\n') →
      parseSrt (joinBlocks blocks) offset = blocks.filterMap (parseBlockGo offset)) := by
  constructor
  · intro data offset
    rfl
  · intro offset blocks hne hcond
    unfold parseSrt
    rw [splitNN_joinBlocks blocks hne hcond]
    rw [parseSrt_foldl offset blocks []]
    simp

theorem c6_lenient_parse_witness :
    parseSrt (joinBlocks [ "1\n00:00:01,000 --> 00:00:02,000\nGood".data,
        "malformed".data, "2\n00:00:03,000 --> 00:00:04,000\nAlso".data]) 0 =
      [{ Index := 1, Start := 1000000000, End := 2000000000, Content := "Good".data },
       { Index := 2, Start := 3000000000, End := 4000000000, Content := "Also".data }] :=
  (c6_lenient_parse.2 0
    [ "1\n00:00:01,000 --> 00:00:02,000\nGood".data, "malformed".data,
      "2\n00:00:03,000 --> 00:00:04,000\nAlso".data]
    (by decide) (by decide)).trans (by decide)

theorem dChar_digit {n : Nat} (h : n < 10) : isDigitChar (dChar n) = true := by
  interval_cases n <;> decide

theorem dChar_val {n : Nat} (h : n < 10) : charVal (dChar n) = n := by
  interval_cases n <;> decide

theorem dChar_ne_comma {n : Nat} (h : n < 10) : dChar n ≠ ',' := by
  interval_cases n <;> decide

theorem dChar_ne_nl {n : Nat} (h : n < 10) : dChar n ≠ '\n' := by
  interval_cases n <;> decide

theorem dChar_ne_plus {n : Nat} (h : n < 10) : dChar n ≠ '+' := by
  interval_cases n <;> decide

theorem dChar_ne_minus {n : Nat} (h : n < 10) : dChar n ≠ '-' := by
  interval_cases n <;> decide

theorem natRepr_lt10 {n : Nat} (h : n < 10) : natRepr n = [dChar n] := by
  rw [natRepr_eq, if_pos h]

theorem zeroPad2_eq {n : Nat} (h : n < 100) :
    zeroPad 2 (natRepr n) = [dChar (n / 10), dChar (n % 10)] := by
  by_cases h1 : n < 10
  · rw [natRepr_lt10 h1]
    have e1 : n / 10 = 0 := by omega
    have e2 : n % 10 = n := by omega
    rw [e1, e2]
    rfl
  · rw [natRepr_eq, if_neg h1, natRepr_lt10 (show n / 10 < 10 by omega)]
    rfl

theorem zeroPad3_eq {n : Nat} (h : n < 1000) :
    zeroPad 3 (natRepr n) = [dChar (n / 100), dChar (n / 10 % 10), dChar (n % 10)] := by
  by_cases h1 : n < 10
  · rw [natRepr_lt10 h1]
    have e1 : n / 100 = 0 := by omega
    have e2 : n / 10 % 10 = 0 := by omega
    have e3 : n % 10 = n := by omega
    rw [e1, e2, e3]
    rfl
  · by_cases h2 : n < 100
    · rw [natRepr_eq, if_neg h1, natRepr_lt10 (show n / 10 < 10 by omega)]
      have e1 : n / 100 = 0 := by omega
      have e2 : n / 10 % 10 = n / 10 := by omega
      rw [e1, e2]
      rfl
    · rw [natRepr_eq, if_neg (show ¬ n < 10 by omega)]
      rw [natRepr_eq, if_neg (show ¬ n / 10 < 10 by omega)]
      rw [natRepr_lt10 (show n / 10 / 10 < 10 by omega)]
      have e1 : n / 10 / 10 = n / 100 := by omega
      rw [e1]
      rfl

theorem zeroPad2_mem {k : Nat} {x : Char} (hk : k < 100)
    (hx : x ∈ zeroPad 2 (natRepr k)) : ∃ j, j < 10 ∧ x = dChar j := by
  rw [zeroPad2_eq hk] at hx
  rcases List.mem_cons.mp hx with rfl | hx2
  · exact ⟨k / 10, by omega, rfl⟩
  · rcases List.mem_cons.mp hx2 with rfl | hx3
    · exact ⟨k % 10, by omega, rfl⟩
    · cases hx3

theorem zeroPad3_mem {k : Nat} {x : Char} (hk : k < 1000)
    (hx : x ∈ zeroPad 3 (natRepr k)) : ∃ j, j < 10 ∧ x = dChar j := by
  rw [zeroPad3_eq hk] at hx
  rcases List.mem_cons.mp hx with rfl | hx2
  · exact ⟨k / 100, by omega, rfl⟩
  · rcases List.mem_cons.mp hx2 with rfl | hx3
    · exact ⟨k / 10 % 10, by omega, rfl⟩
    · rcases List.mem_cons.mp hx3 with rfl | hx4
      · exact ⟨k % 10, by omega, rfl⟩
      · cases hx4

theorem ofNat_tdiv (a b : Nat) : ((a : Int)).tdiv ((b : Int)) = ((a / b : Nat) : Int) := rfl

theorem ofNat_tmod (a b : Nat) : ((a : Int)).tmod ((b : Int)) = ((a % b : Nat) : Int) := rfl

theorem intPad_cast (w : Nat) (k : Nat) : intPad w ((k : Int)) = zeroPad w (natRepr k) := by
  unfold intPad
  rw [if_neg (by omega)]
  rw [Int.toNat_natCast]

theorem single_isPrefixOf_iff (c x : Char) (xs : List Char) :
    ([c] : List Char).isPrefixOf (x :: xs) = true ↔ c = x := by
  rw [List.isPrefixOf_cons₂]
  simp only [List.isPrefixOf_nil_left, Bool.and_true, beq_iff_eq]

theorem splitChar_single {c : Char} : ∀ {l : List Char}, c ∉ l → splitSub [c] l = [l] := by
  intro l
  induction l with
  | nil => intro _; rfl
  | cons x xs ih =>
    intro h
    rw [splitSub_cons]
    rw [if_neg (by
      rintro ⟨-, hpre⟩
      have hcx : c = x := (single_isPrefixOf_iff c x xs).mp hpre
      exact h (by rw [hcx]; exact List.mem_cons_self x xs))]
    rw [ih (fun hm => h (List.mem_cons_of_mem x hm))]

theorem splitChar_append {c : Char} : ∀ (a b : List Char), c ∉ a →
    splitSub [c] (a ++ c :: b) = a :: splitSub [c] b := by
  intro a
  induction a with
  | nil =>
    intro b _
    rw [List.nil_append, splitSub_cons]
    rw [if_pos ⟨by simp, (single_isPrefixOf_iff c c b).mpr rfl⟩]
    simp

  | cons x a' ih =>
    intro b h
    rw [List.cons_append, splitSub_cons]
    rw [if_neg (by
      rintro ⟨-, hpre⟩
      have hcx : c = x := (single_isPrefixOf_iff c x _).mp hpre
      exact h (by rw [hcx]; exact List.mem_cons_self x a'))]
    rw [ih b (fun hm => h (List.mem_cons_of_mem x hm))]

theorem splitChar_joinNl : ∀ (L : List (List Char)), L ≠ [] →
    (∀ ln ∈ L, '\n' ∉ ln) → splitSub [ '\n'] (joinNl L) = L := by
  intro L
  induction L with
  | nil => intro h; cases h rfl
  | cons l rest ih =>
    intro _ hc
    cases rest with
    | nil =>
      have hj : joinNl [l] = l := rfl
      rw [hj, splitChar_single (hc l (by simp))]
    | cons l2 r2 =>
      have hj : joinNl (l :: l2 :: r2) = l ++ '\n' :: joinNl (l2 :: r2) := rfl
      rw [hj, splitChar_append _ _ (hc l (by simp))]
      rw [ih (by simp) (fun x hx => hc x (List.mem_cons_of_mem l hx))]

theorem clockDigits_render {a b : Nat} (ha : a < 10) (hb : b < 10) (rest : List Char) :
    clockDigits (dChar a :: dChar b :: rest) = some (10 * a + b, rest) := by
  simp [clockDigits, dChar_digit ha, dChar_digit hb, dChar_val ha, dChar_val hb]

theorem twoDigits_render {a b : Nat} (ha : a < 10) (hb : b < 10) (rest : List Char) :
    twoDigits (dChar a :: dChar b :: rest) = some (10 * a + b, rest) := by
  simp [twoDigits, dChar_digit ha, dChar_digit hb, dChar_val ha, dChar_val hb]

theorem parseClock_render {h m s : Nat} (hh : h < 24) (hm : m < 60) (hs : s < 60) :
    parseClock (zeroPad 2 (natRepr h) ++ ':' ::
      (zeroPad 2 (natRepr m) ++ ':' :: zeroPad 2 (natRepr s))) = some (h, m, s) := by
  rw [zeroPad2_eq (show h < 100 by omega), zeroPad2_eq (show m < 100 by omega),
    zeroPad2_eq (show s < 100 by omega)]
  have eh : 10 * (h / 10) + h % 10 = h := by omega
  have em : 10 * (m / 10) + m % 10 = m := by omega
  have es : 10 * (s / 10) + s % 10 = s := by omega
  unfold parseClock
  rw [show ([dChar (h / 10), dChar (h % 10)] ++ ':' ::
      ([dChar (m / 10), dChar (m % 10)] ++ ':' :: [dChar (s / 10), dChar (s % 10)])) =
    dChar (h / 10) :: dChar (h % 10) :: ':' :: dChar (m / 10) :: dChar (m % 10) :: ':' ::
      dChar (s / 10) :: dChar (s % 10) :: [] from rfl]
  rw [clockDigits_render (by omega) (by omega), eh]
  dsimp only
  rw [if_pos rfl]
  rw [twoDigits_render (by omega) (by omega), em]
  dsimp only
  rw [if_pos rfl]
  rw [twoDigits_render (by omega) (by omega), es]
  dsimp only
  simp [hh, hm, hs]

theorem atoi_digits : ∀ {l : List Char}, l ≠ [] → l.all isDigitChar = true →
    digitsVal l < 9223372036854775808 → atoi l = some ((digitsVal l : Nat) : Int) := by
  intro l hne hall hsize
  cases l with
  | nil => cases hne rfl
  | cons c r =>
    have hcdig : isDigitChar c = true := List.all_eq_true.mp hall c (List.mem_cons_self c r)
    have hplus : c ≠ '+' := by intro hEq; rw [hEq] at hcdig; cases hcdig
    have hminus : c ≠ '-' := by intro hEq; rw [hEq] at hcdig; cases hcdig
    unfold atoi atoiSign
    dsimp only
    rw [if_neg hplus, if_neg hminus]
    dsimp only
    unfold atoiCore
    dsimp only
    rw [if_pos hall]
    dsimp only
    rw [if_neg (by
      push_neg
      constructor <;> omega)]
    rw [one_mul]

theorem atoi_zeroPad3 {ms : Nat} (h : ms < 1000) :
    atoi (zeroPad 3 (natRepr ms)) = some ((ms : Int)) := by
  rw [zeroPad3_eq h]
  have h1 : ms / 100 < 10 := by omega
  have h2 : ms / 10 % 10 < 10 := by omega
  have h3 : ms % 10 < 10 := by omega
  have hval : digitsVal [dChar (ms / 100), dChar (ms / 10 % 10), dChar (ms % 10)] = ms := by
    unfold digitsVal
    simp only [List.foldl_cons, List.foldl_nil, dChar_val h1, dChar_val h2, dChar_val h3]
    omega
  rw [atoi_digits (by simp) (by simp [dChar_digit h1, dChar_digit h2, dChar_digit h3])
    (by rw [hval]; omega), hval]

theorem fmtSrtTime_cast (n : Nat) :
    fmtSrtTime ((n : Int)) =
      zeroPad 2 (natRepr (n / 3600000000000)) ++ ':' ::
        (zeroPad 2 (natRepr (n / 60000000000 % 60)) ++ ':' ::
          (zeroPad 2 (natRepr (n / 1000000000 % 60)) ++ ',' ::
            zeroPad 3 (natRepr (n / 1000000 % 1000)))) := by
  unfold fmtSrtTime
  have l1 : (3600000000000 : Int) = ((3600000000000 : Nat) : Int) := rfl
  have l2 : (60000000000 : Int) = ((60000000000 : Nat) : Int) := rfl
  have l3 : (1000000000 : Int) = ((1000000000 : Nat) : Int) := rfl
  have l4 : (1000000 : Int) = ((1000000 : Nat) : Int) := rfl
  have l5 : (60 : Int) = ((60 : Nat) : Int) := rfl
  have l6 : (1000 : Int) = ((1000 : Nat) : Int) := rfl
  rw [l1, l2, l3, l4, l5, l6, ofNat_tdiv, ofNat_tdiv, ofNat_tdiv, ofNat_tdiv,
    ofNat_tmod, ofNat_tmod, ofNat_tmod, intPad_cast, intPad_cast, intPad_cast,
    intPad_cast]

theorem time_decompose {n : Nat} (hg : n % 1000000 = 0) :
    3600000000000 * (n / 3600000000000) + 60000000000 * (n / 60000000000 % 60) +
      1000000000 * (n / 1000000000 % 60) + 1000000 * (n / 1000000 % 1000) = n := by
  have e1 : n % (1000000 * 1000) = n % 1000000 + 1000000 * (n / 1000000 % 1000) :=
    Nat.mod_mul
  have e2 : n % (1000000000 * 60) = n % 1000000000 + 1000000000 * (n / 1000000000 % 60) :=
    Nat.mod_mul
  have e3 : n % (60000000000 * 60) = n % 60000000000 + 60000000000 * (n / 60000000000 % 60) :=
    Nat.mod_mul
  have e4 : 3600000000000 * (n / 3600000000000) + n % 3600000000000 = n :=
    Nat.div_add_mod n 3600000000000
  have n1 : (1000000 * 1000 : Nat) = 1000000000 := by norm_num
  have n2 : (1000000000 * 60 : Nat) = 60000000000 := by norm_num
  have n3 : (60000000000 * 60 : Nat) = 3600000000000 := by norm_num
  rw [n1] at e1
  rw [n2] at e2
  rw [n3] at e3
  omega

theorem parse_fmt_roundtrip {d : Int} (h0 : 0 ≤ d) (h1 : d < 86400000000000)
    (hg : d % 1000000 = 0) : parseSrtTime (fmtSrtTime d) = some d := by
  obtain ⟨n, rfl⟩ := Int.eq_ofNat_of_zero_le h0
  have hn : n < 86400000000000 := by exact_mod_cast h1
  have hng : n % 1000000 = 0 := by omega
  rw [fmtSrtTime_cast]
  have hre : zeroPad 2 (natRepr (n / 3600000000000)) ++ ':' ::
        (zeroPad 2 (natRepr (n / 60000000000 % 60)) ++ ':' ::
          (zeroPad 2 (natRepr (n / 1000000000 % 60)) ++ ',' ::
            zeroPad 3 (natRepr (n / 1000000 % 1000)))) =
      (zeroPad 2 (natRepr (n / 3600000000000)) ++ ':' ::
        (zeroPad 2 (natRepr (n / 60000000000 % 60)) ++ ':' ::
          zeroPad 2 (natRepr (n / 1000000000 % 60)))) ++ ',' ::
            zeroPad 3 (natRepr (n / 1000000 % 1000)) := by
    simp [List.append_assoc]
  rw [hre]
  have hnc : ',' ∉ zeroPad 2 (natRepr (n / 3600000000000)) ++ ':' ::
      (zeroPad 2 (natRepr (n / 60000000000 % 60)) ++ ':' ::
        zeroPad 2 (natRepr (n / 1000000000 % 60))) := by
    intro hmem
    rcases List.mem_append.mp hmem with hA | hB
    · obtain ⟨j, hj, hEq⟩ := zeroPad2_mem (by omega) hA
      exact dChar_ne_comma hj hEq.symm
    · rcases List.mem_cons.mp hB with hcolon | hB2
      · cases hcolon
      · rcases List.mem_append.mp hB2 with hC | hD
        · obtain ⟨j, hj, hEq⟩ := zeroPad2_mem (by omega) hC
          exact dChar_ne_comma hj hEq.symm
        · rcases List.mem_cons.mp hD with hcolon | hE
          · cases hcolon
          · obtain ⟨j, hj, hEq⟩ := zeroPad2_mem (by omega) hE
            exact dChar_ne_comma hj hEq.symm
  have hnc2 : ',' ∉ zeroPad 3 (natRepr (n / 1000000 % 1000)) := by
    intro hmem
    obtain ⟨j, hj, hEq⟩ := zeroPad3_mem (by omega) hmem
    exact dChar_ne_comma hj hEq.symm
  unfold parseSrtTime
  rw [splitChar_append _ _ hnc, splitChar_single hnc2]
  dsimp only
  rw [parseClock_render (by omega) (by omega) (by omega)]
  dsimp only
  rw [atoi_zeroPad3 (by omega)]
  dsimp only
  simp only [wrap64_add_left, wrap64_add_right]
  have hkey := time_decompose hng
  have hsum : ((n / 3600000000000 : Nat) : Int) * 3600000000000 +
      ((n / 60000000000 % 60 : Nat) : Int) * 60000000000 +
      ((n / 1000000000 % 60 : Nat) : Int) * 1000000000 +
      ((n / 1000000 % 1000 : Nat) : Int) * 1000000 = ((n : Nat) : Int) := by
    push_cast
    push_cast at hkey
    omega
  rw [hsum]
  rw [wrap64_eq_self (by omega) (by omega)]

theorem hasNN_of_not_mem : ∀ {l : List Char}, '\n' ∉ l → hasNN l = false := by
  intro l
  induction l with
  | nil => intro _; rfl
  | cons c r ih =>
    intro h
    have hc : ¬(c = '\n') := by
      intro hEq
      subst hEq
      exact h (List.mem_cons_self _ _)
    simp [hasNN, hc, ih (fun hm => h (List.mem_cons_of_mem c hm))]

theorem hasNN_append_nl : ∀ {a b : List Char}, '\n' ∉ a → hasNN b = false →
    b.head? ≠ some '\n' → hasNN (a ++ '\n' :: b) = false := by
  intro a
  induction a with
  | nil =>
    intro b _ hb hhb
    simp [hasNN, hb, hhb]
  | cons x a' ih =>
    intro b h hb hhb
    have hx : ¬(x = '\n') := by
      intro hEq
      subst hEq
      exact h (List.mem_cons_self _ _)
    rw [List.cons_append]
    simp [hasNN, hx, ih (fun hm => h (List.mem_cons_of_mem x hm)) hb hhb]

theorem head_append_ne_nl {a b : List Char} (ha : a ≠ []) (hc : '\n' ∉ a) :
    (a ++ b).head? ≠ some '\n' := by
  cases a with
  | nil => cases ha rfl
  | cons x xs =>
    rw [List.cons_append, List.head?_cons]
    intro hEq
    have hx : x = '\n' := by injection hEq
    subst hx
    exact hc (List.mem_cons_self _ _)

theorem joinNl_props : ∀ (L : List (List Char)), L ≠ [] →
    (∀ ln ∈ L, '\n' ∉ ln ∧ ln ≠ []) →
    hasNN (joinNl L) = false ∧ (joinNl L).head? ≠ some '\n' := by
  intro L
  induction L with
  | nil => intro h; cases h rfl
  | cons l rest ih =>
    intro _ hc
    have hl := hc l (by simp)
    cases rest with
    | nil =>
      have hj : joinNl [l] = l := rfl
      rw [hj]
      refine ⟨hasNN_of_not_mem hl.1, ?_⟩
      cases hln : l with
      | nil => cases hl.2 hln
      | cons x xs =>
        rw [List.head?_cons]
        intro hEq
        have hx : x = '\n' := by injection hEq
        subst hx
        exact hl.1 (by rw [hln]; exact List.mem_cons_self _ _)
    | cons l2 r2 =>
      have hih := ih (by simp) (fun x hx => hc x (List.mem_cons_of_mem l hx))
      have hj : joinNl (l :: l2 :: r2) = l ++ '\n' :: joinNl (l2 :: r2) := rfl
      rw [hj]
      exact ⟨hasNN_append_nl hl.1 hih.1 hih.2, head_append_ne_nl hl.2 hl.1⟩

theorem digit_not_space {c : Char} (h : isDigitChar c = true) : goIsSpace c = false := by
  cases hs : goIsSpace c
  · rfl
  · exfalso
    simp only [goIsSpace, decide_eq_true_eq] at hs
    rcases hs with rfl | rfl | rfl | rfl | rfl | rfl | rfl | rfl <;> exact absurd h (by decide)

theorem atoiSign_snd_subset : ∀ (l : List Char) (x : Char), x ∈ (atoiSign l).2 → x ∈ l := by
  intro l x hx
  cases l with
  | nil => exact hx
  | cons c r =>
    simp only [atoiSign] at hx
    split at hx
    · exact List.mem_cons_of_mem c hx
    · split at hx
      · exact List.mem_cons_of_mem c hx
      · exact hx

theorem atoi_has_digit {l : List Char} {v : Int} (h : atoi l = some v) :
    ∃ c ∈ l, isDigitChar c = true := by
  unfold atoi at h
  cases hcore : atoiCore (atoiSign l).2 with
  | none => rw [hcore] at h; cases h
  | some n =>
    unfold atoiCore at hcore
    cases hrest : (atoiSign l).2 with
    | nil => rw [hrest] at hcore; cases hcore
    | cons c r =>
      rw [hrest] at hcore
      dsimp only at hcore
      by_cases hall : (c :: r).all isDigitChar = true
      · have hcd : isDigitChar c = true := List.all_eq_true.mp hall c (List.mem_cons_self c r)
        exact ⟨c, atoiSign_snd_subset l c (by rw [hrest]; exact List.mem_cons_self c r), hcd⟩
      · rw [if_neg hall] at hcore
        cases hcore

/-- C5: for a single well-formed subtitle block — an index line accepted by
`strconv.Atoi`, a timecode line that splits on `" --> "` into two timecodes
accepted by the timecode parser with values in `[0, 24h)` on millisecond
granularity, and one or more non-empty newline-free text lines — parsing
with zero offset yields exactly one entry carrying those times and that
body; the serialized entry renders the body verbatim, and the rendered
timecodes parse back to exactly the same `Start` and `End` durations
(round-trip up to formatting). -/
theorem c5_block_roundtrip
    (idxLine tcLine t0 t1 : List Char) (body : List (List Char)) (idx st en : Int)
    (hidx : atoi idxLine = some idx)
    (hnl0 : '\n' ∉ idxLine)
    (hsplit : splitSub arrowSep tcLine = [t0, t1])
    (hnl1 : '\n' ∉ tcLine)
    (ht0 : parseSrtTime t0 = some st)
    (ht1 : parseSrtTime t1 = some en)
    (hst0 : 0 ≤ st) (hst1 : st < 86400000000000) (hstg : st % 1000000 = 0)
    (hen0 : 0 ≤ en) (hen1 : en < 86400000000000) (heng : en % 1000000 = 0)
    (hbody : body ≠ [])
    (hlines : ∀ ln ∈ body, '\n' ∉ ln ∧ ln ≠ []) :
    parseSrt (idxLine ++ '\n' :: (tcLine ++ '\n' :: joinNl body)) 0 =
      [{ Index := idx, Start := st, End := en, Content := joinNl body }] ∧
    parseSrtTime (fmtSrtTime st) = some st ∧
    parseSrtTime (fmtSrtTime en) = some en ∧
    serializeEntry 1 { Index := idx, Start := st, End := en, Content := joinNl body } =
      natRepr 1 ++ '\n' :: (fmtSrtTime st ++ arrowSep ++ fmtSrtTime en ++ '\n' ::
        (joinNl body ++ [ '\n', '\n'])) := by
  have hjo := joinNl_props body hbody hlines
  have htcne : tcLine ≠ [] := by
    intro hEq
    subst hEq
    rw [splitSub_nil] at hsplit
    simp at hsplit
  have hinner : hasNN (tcLine ++ '\n' :: joinNl body) = false :=
    hasNN_append_nl hnl1 hjo.1 hjo.2
  have hinnerhead : (tcLine ++ '\n' :: joinNl body).head? ≠ some '\n' :=
    head_append_ne_nl htcne hnl1
  have hblock : hasNN (idxLine ++ '\n' :: (tcLine ++ '\n' :: joinNl body)) = false :=
    hasNN_append_nl hnl0 hinner hinnerhead
  have hlines_split : splitSub [ '\n'] (idxLine ++ '\n' :: (tcLine ++ '\n' :: joinNl body)) =
      idxLine :: tcLine :: body := by
    rw [splitChar_append _ _ hnl0, splitChar_append _ _ hnl1,
      splitChar_joinNl body hbody (fun ln h => (hlines ln h).1)]
  have hnotspace : (idxLine ++ '\n' :: (tcLine ++ '\n' :: joinNl body)).all goIsSpace = false := by
    obtain ⟨c, hcmem, hcdig⟩ := atoi_has_digit hidx
    cases hall : (idxLine ++ '\n' :: (tcLine ++ '\n' :: joinNl body)).all goIsSpace
    · rfl
    · exfalso
      have := List.all_eq_true.mp hall c (List.mem_append_left _ hcmem)
      rw [digit_not_space hcdig] at this
      cases this
  have hparseblock : parseBlockGo 0 (idxLine ++ '\n' :: (tcLine ++ '\n' :: joinNl body)) =
      some { Index := idx, Start := st, End := en, Content := joinNl body } := by
    unfold parseBlockGo
    rw [if_neg (by rw [hnotspace]; exact Bool.false_ne_true)]
    rw [hlines_split]
    cases body with
    | nil => cases hbody rfl
    | cons b0 brest =>
      dsimp only
      rw [hidx]
      dsimp only
      rw [hsplit]
      dsimp only
      rw [ht0]
      dsimp only
      rw [ht1]
      dsimp only
      rw [add_zero, add_zero]
      rw [wrap64_eq_self (by omega) (by omega), wrap64_eq_self (by omega) (by omega)]
  refine ⟨?_, parse_fmt_roundtrip hst0 hst1 hstg, parse_fmt_roundtrip hen0 hen1 heng, rfl⟩
  unfold parseSrt
  rw [hasNN_false_split hblock]
  rw [List.foldl_cons, hparseblock]
  rfl

theorem c5_block_roundtrip_witness :
    parseSrt ( "1".data ++ '\n' ::
        ( "00:00:01,000 --> 00:00:02,500".data ++ '\n' :: joinNl [ "Hello".data])) 0 =
      [{ Index := 1, Start := 1000000000, End := 2500000000, Content := joinNl [ "Hello".data] }] ∧
    parseSrtTime (fmtSrtTime 1000000000) = some 1000000000 ∧
    parseSrtTime (fmtSrtTime 2500000000) = some 2500000000 ∧
    serializeEntry 1
      { Index := 1, Start := 1000000000, End := 2500000000, Content := joinNl [ "Hello".data] } =
      natRepr 1 ++ '\n' :: (fmtSrtTime 1000000000 ++ arrowSep ++ fmtSrtTime 2500000000 ++ '\n' ::
        (joinNl [ "Hello".data] ++ [ '\n', '\n'])) :=
  c5_block_roundtrip ( "1".data) ( "00:00:01,000 --> 00:00:02,500".data)
    ( "00:00:01,000".data) ( "00:00:02,500".data) [ "Hello".data] 1 1000000000 2500000000
    (by decide) (by decide) (by decide) (by decide) (by decide) (by decide)
    (by decide) (by decide) (by decide) (by decide) (by decide) (by decide)
    (by decide) (by decide)

theorem get?_set_self {α : Type} : ∀ (l : List α) (i : Nat) (a x : α),
    l.get? i = some x → (l.set i a).get? i = some a := by
  intro l
  induction l with
  | nil => intro i a x h; cases h
  | cons t r ih =>
    intro i a x h
    cases i with
    | zero => rfl
    | succ j => exact ih j a x h

theorem get?_set_other {α : Type} : ∀ (l : List α) (i j : Nat) (a : α), i ≠ j →
    (l.set i a).get? j = l.get? j := by
  intro l
  induction l with
  | nil => intro i j a _; rfl
  | cons t r ih =>
    intro i j a hne
    cases i with
    | zero =>
      cases j with
      | zero => cases hne rfl
      | succ j2 => rfl
    | succ i2 =>
      cases j with
      | zero => rfl
      | succ j2 => exact ih i2 j2 a (fun hEq => hne (by rw [hEq]))

theorem get?_replicate {α : Type} (a : α) : ∀ (n i : Nat) {x : α},
    (List.replicate n a).get? i = some x → x = a := by
  intro n
  induction n with
  | zero => intro i x h; cases h
  | succ m ih =>
    intro i x h
    cases i with
    | zero =>
      rw [List.replicate_succ] at h
      exact (Option.some.inj h).symm
    | succ j =>
      rw [List.replicate_succ] at h
      exact ih j h

theorem countRun_set_balance : ∀ (l : List TPhase) (i : Nat) (x a : TPhase),
    l.get? i = some x →
    countRun (l.set i a) + (if x = TPhase.running then 1 else 0) =
      countRun l + (if a = TPhase.running then 1 else 0) := by
  intro l
  induction l with
  | nil => intro i x a h; cases h
  | cons t r ih =>
    intro i x a h
    cases i with
    | zero =>
      have ht : t = x := Option.some.inj h
      subst ht
      show countRun (a :: r) + _ = _
      simp only [countRun]
      omega
    | succ j =>
      show countRun (t :: r.set j a) + _ = _
      simp only [countRun]
      have := ih j x a h
      omega

theorem countRun_pos : ∀ (l : List TPhase) (i : Nat),
    l.get? i = some TPhase.running → 1 ≤ countRun l := by
  intro l
  induction l with
  | nil => intro i h; cases h
  | cons t r ih =>
    intro i h
    cases i with
    | zero =>
      have ht : t = TPhase.running := Option.some.inj h
      subst ht
      simp [countRun]
    | succ j =>
      have := ih j h
      simp only [countRun]
      omega

theorem countRun_exists : ∀ (l : List TPhase), 0 < countRun l →
    ∃ i, l.get? i = some TPhase.running := by
  intro l
  induction l with
  | nil => intro h; simp [countRun] at h
  | cons t r ih =>
    intro h
    by_cases ht : t = TPhase.running
    · exact ⟨0, by rw [ht]; rfl⟩
    · have hr : 0 < countRun r := by
        simp only [countRun, if_neg ht] at h
        omega
      obtain ⟨j, hj⟩ := ih hr
      exact ⟨j + 1, hj⟩

theorem countRun_set_le : ∀ (l : List TPhase) (i : Nat) (a : TPhase),
    countRun (l.set i a) ≤ countRun l + 1 := by
  intro l
  induction l with
  | nil => intro i a; simp [countRun]
  | cons t r ih =>
    intro i a
    cases i with
    | zero =>
      show countRun (a :: r) ≤ _
      simp only [countRun]
      split <;> split <;> omega
    | succ j =>
      show countRun (t :: r.set j a) ≤ _
      simp only [countRun]
      have := ih j a
      omega

theorem all_finished_replicate : ∀ (l : List TPhase),
    (∀ i x, l.get? i = some x → x = TPhase.finished) →
    l = List.replicate l.length TPhase.finished := by
  intro l
  induction l with
  | nil => intro _; rfl
  | cons t r ih =>
    intro h
    have ht : t = TPhase.finished := h 0 t rfl
    subst ht
    rw [List.length_cons, List.replicate_succ]
    congr 1
    exact ih (fun i x hx => h (i + 1) x hx)

theorem poolInv_init : PoolInv poolInit := by
  refine ⟨rfl, by decide, ?_, rfl, rfl, by decide, by decide, fun h => absurd rfl h,
    by decide, ?_⟩
  · intro i x h
    have hx := get?_replicate TPhase.pending 5 i h
    subst hx
    constructor
    · intro _
      exact Nat.zero_le i
    · intro _; rfl
  · intro h
    exact absurd h (by decide)

theorem poolInv_step {s s' : PoolState} (hinv : PoolInv s) (hstep : PStep s s') :
    PoolInv s' := by
  obtain ⟨hlen, hla, hpend, hsem, hwg, hsem2, herr, hmain5, hnotok, hfail⟩ := hinv
  cases hstep with
  | launch h1 h2 h3 =>
    have hgetx : s.tasks.get? s.launched ≠ none := by
      intro hnone
      have := List.get?_eq_none.mp hnone
      omega
    obtain ⟨x, hx⟩ := Option.ne_none_iff_exists'.mp hgetx
    have hxp : x = TPhase.pending := (hpend s.launched x hx).mpr (le_refl _)
    subst hxp
    have hbal : countRun (s.tasks.set s.launched TPhase.running) =
        countRun s.tasks + 1 := by
      have := countRun_set_balance s.tasks s.launched TPhase.pending TPhase.running hx
      simp at this
      omega
    refine ⟨?_, by dsimp only; omega, ?_, ?_, ?_, ?_, ?_, ?_, ?_, ?_⟩
    · dsimp only
      rw [List.length_set]
      exact hlen
    · dsimp only
      intro i y hy
      by_cases hij : s.launched = i
      · subst hij
        rw [get?_set_self _ _ _ _ hx] at hy
        have hyr : TPhase.running = y := Option.some.inj hy
        constructor
        · intro hyp
          rw [← hyr] at hyp
          cases hyp
        · intro hle
          omega
      · rw [get?_set_other _ _ _ _ hij] at hy
        have hiff := hpend i y hy
        constructor
        · intro hyp
          have := hiff.mp hyp
          omega
        · intro hle
          exact hiff.mpr (by omega)
    · dsimp only
      rw [hbal]
      omega
    · dsimp only
      rw [hbal]
      omega
    · dsimp only
      omega
    · dsimp only
      by_cases h2i : s.launched = 2
      · rw [← h2i]
        rw [get?_set_self _ _ _ _ hx]
        rw [← h2i] at herr
        rw [hx] at herr
        simp at herr ⊢
        exact herr
      · rw [get?_set_other _ _ _ _ h2i]
        exact herr
    · dsimp only
      intro h
      exact absurd rfl h
    · dsimp only
      decide
    · dsimp only
      intro h
      exact absurd h (by decide)
  | beginWait h1 h2 =>
    refine ⟨hlen, hla, hpend, hsem, hwg, hsem2, herr, fun _ => h2, ?_, ?_⟩
    · show MPhase.waiting ≠ MPhase.doneOk
      decide
    · intro h
      have hwf : MPhase.waiting = MPhase.doneFail := h
      exact absurd hwf (by decide)
  | complete i hr =>
    have hcount1 : 1 ≤ countRun s.tasks := countRun_pos s.tasks i hr
    have hbal : countRun (s.tasks.set i TPhase.finished) =
        countRun s.tasks - 1 := by
      have := countRun_set_balance s.tasks i TPhase.running TPhase.finished hr
      simp at this
      omega
    have hnotfail : s.mainPh ≠ MPhase.doneFail := by
      intro h
      have hrep := (hfail h).1
      rw [hrep] at hr
      have := get?_replicate TPhase.finished 5 i hr
      cases this
    refine ⟨?_, by dsimp only; omega, ?_, ?_, ?_, ?_, ?_, ?_, ?_, ?_⟩
    · dsimp only
      rw [List.length_set]
      exact hlen
    · dsimp only
      intro j y hy
      by_cases hij : i = j
      · subst hij
        rw [get?_set_self _ _ _ _ hr] at hy
        have hyf : TPhase.finished = y := Option.some.inj hy
        have hnotle : ¬ s.launched ≤ i := by
          intro hle
          have := (hpend i TPhase.running hr).mpr hle
          cases this
        constructor
        · intro hyp
          rw [← hyf] at hyp
          cases hyp
        · intro hle
          exact absurd hle hnotle
      · rw [get?_set_other _ _ _ _ hij] at hy
        exact hpend j y hy
    · dsimp only
      rw [hbal, hsem]
    · dsimp only
      rw [hbal, hwg]
    · dsimp only
      omega
    · dsimp only
      by_cases h2i : i = 2
      · subst h2i
        rw [get?_set_self _ _ _ _ hr]
        rw [hr] at herr
        simp at herr
        simp [herr]
      · rw [get?_set_other _ _ _ _ h2i]
        rw [if_neg h2i]
        exact herr
    · dsimp only
      exact hmain5
    · dsimp only
      exact hnotok
    · dsimp only
      intro h
      exact absurd h hnotfail
  | report h1 h2 =>
    have hcz : countRun s.tasks = 0 := by omega
    have hl5 : s.launched = 5 := hmain5 (by rw [h1]; decide)
    have hallfin : ∀ i x, s.tasks.get? i = some x → x = TPhase.finished := by
      intro i x hx
      have hi5 : i < 5 := by
        by_contra hge
        have : s.tasks.length ≤ i := by omega
        rw [← List.get?_eq_none] at this
        rw [this] at hx
        cases hx
      cases x with
      | pending =>
        have := (hpend i TPhase.pending hx).mp rfl
        omega
      | running =>
        have := countRun_pos s.tasks i hx
        omega
      | finished => rfl
    have hrep : s.tasks = List.replicate 5 TPhase.finished := by
      have := all_finished_replicate s.tasks hallfin
      rw [hlen] at this
      exact this
    have hget2 : s.tasks.get? 2 = some TPhase.finished := by
      rw [hrep]
      rfl
    have herr1 : s.errs = 1 := by
      rw [hget2] at herr
      simpa using herr
    have hphase : (if s.errs = 0 then MPhase.doneOk else MPhase.doneFail) =
        MPhase.doneFail := by
      rw [if_neg (by omega)]
    refine ⟨hlen, hla, hpend, hsem, hwg, hsem2, herr, ?_, ?_, ?_⟩
    · intro _
      exact hl5
    · dsimp only
      rw [hphase]
      decide
    · dsimp only
      intro _
      exact ⟨hrep, herr1⟩

theorem poolInv_reachable {s : PoolState} (h : PoolReachable s) : PoolInv s := by
  induction h with
  | refl => exact poolInv_init
  | tail _ hstep ih => exact poolInv_step ih hstep

theorem pool_terminal {s : PoolState} (hinv : PoolInv s) (hterm : ∀ s', ¬ PStep s s') :
    s.tasks = List.replicate 5 TPhase.finished ∧ s.errs = 1 ∧
      s.mainPh = MPhase.doneFail := by
  obtain ⟨hlen, hla, hpend, hsem, hwg, hsem2, herr, hmain5, hnotok, hfail⟩ := hinv
  cases hph : s.mainPh with
  | launching =>
    exfalso
    by_cases h5 : s.launched < 5
    · by_cases hs2 : s.sem < 2
      · exact hterm _ (PStep.launch s hph h5 hs2)
      · have hpos : 0 < countRun s.tasks := by omega
        obtain ⟨i, hi⟩ := countRun_exists s.tasks hpos
        exact hterm _ (PStep.complete s i hi)
    · exact hterm _ (PStep.beginWait s hph (by omega))
  | waiting =>
    exfalso
    by_cases hw : s.wg = 0
    · exact hterm _ (PStep.report s hph hw)
    · have hpos : 0 < countRun s.tasks := by omega
      obtain ⟨i, hi⟩ := countRun_exists s.tasks hpos
      exact hterm _ (PStep.complete s i hi)
  | doneOk => exact absurd hph hnotok
  | doneFail =>
    obtain ⟨hrep, he1⟩ := hfail hph
    exact ⟨hrep, he1, rfl⟩

theorem pool_measure_dec {s s' : PoolState} (h : PStep s s') :
    poolMeasure s' < poolMeasure s := by
  cases h with
  | launch h1 h2 h3 =>
    have hle := countRun_set_le s.tasks s.launched TPhase.running
    simp only [poolMeasure, h1, mweight]
    omega
  | beginWait h1 h2 =>
    simp only [poolMeasure, h1, mweight]
    omega
  | complete i hr =>
    have hbal := countRun_set_balance s.tasks i TPhase.running TPhase.finished hr
    simp at hbal
    have hpos := countRun_pos s.tasks i hr
    simp only [poolMeasure]
    omega
  | report h1 h2 =>
    simp only [poolMeasure, h1]
    by_cases he : s.errs = 0
    · rw [if_pos he]
      simp only [mweight]
      omega
    · rw [if_neg he]
      simp only [mweight]
      omega

/-- C10: for the worker pool with concurrency limit W = 2 over 5 segments in
which exactly task 3 (index 2) fails: every reachable state has at most 2
tasks running their external process concurrently; every reachable stuck
state has all 5 tasks finished (none cancelled), exactly one collected
failure, and the main goroutine reporting failure after all tasks have
finished; and every step strictly decreases a finite measure, so every run
reaches such a state. -/
theorem c10_worker_pool :
    (∀ s, PoolReachable s → countRun s.tasks ≤ 2) ∧
    (∀ s, PoolReachable s → (∀ s', ¬ PStep s s') →
      s.tasks = List.replicate 5 TPhase.finished ∧ s.errs = 1 ∧
        s.mainPh = MPhase.doneFail) ∧
    (∀ s s', PStep s s' → poolMeasure s' < poolMeasure s) := by
  refine ⟨?_, ?_, ?_⟩
  · intro s hs
    have hinv := poolInv_reachable hs
    have hsemc := hinv.2.2.2.1
    have hsem2 := hinv.2.2.2.2.2.1
    omega
  · intro s hs hterm
    exact pool_terminal (poolInv_reachable hs) hterm
  · intro s s' h
    exact pool_measure_dec h

theorem c10_worker_pool_witness : countRun poolInit.tasks ≤ 2 :=
  c10_worker_pool.1 poolInit Relation.ReflTransGen.refl

end TransVi
